import Mathlib

/-!
Verification of the sliding-window rate limiter of `src/middleware.py`
(`RateLimitMiddleware`).  Timestamps are modelled as integers (the code uses
`time.time()` seconds), client queues as lists of timestamps oldest-first
(the code's `deque`), and the per-client store as an association list
(the code's `Dict[str, deque]`, a `defaultdict`).
-/

namespace RateLimit

/-- Configuration fixed at middleware construction:
`requests_per_minute` (the per-window limit, `RATE_LIMIT_REQUESTS`) and
`window_seconds` (`RATE_LIMIT_WINDOW`). -/
structure Config where
  requestsPerMinute : Int
  windowSeconds : Int
deriving DecidableEq, Repr

/-- Decision returned for one non-exempt request, carrying the values the code
puts into the 429 body/headers (`Retry-After`, `X-RateLimit-Limit`,
`X-RateLimit-Remaining`, `X-RateLimit-Reset`) or the success headers. -/
inductive Decision where
  | admitted (limit remaining resetAt : Int)
  | rejected (retryAfter limit remaining resetAt : Int)
deriving DecidableEq, Repr

/-- The purge loop `while client_queue and client_queue[0] < cutoff_time:
client_queue.popleft()`: drop leading timestamps strictly below `cutoff`. -/
def purge (cutoff : Int) : List Int → List Int
  | [] => []
  | x :: xs => if x < cutoff then purge cutoff xs else x :: xs

/-- Lines 258–296 of `dispatch` acting on one client's queue: purge entries
older than `now - window_seconds`; if the remaining count reaches the limit,
reject (queue left purged, `now` not recorded) with
`retry_after = window_seconds`, `remaining = max 0 (limit - len)`,
`reset = now + window_seconds`; otherwise append `now` and report
`remaining = max 0 (limit - new_len)`. -/
def admitRequest (cfg : Config) (q : List Int) (now : Int) : Decision × List Int :=
  let cutoff := now - cfg.windowSeconds
  let q1 := purge cutoff q
  if cfg.requestsPerMinute ≤ (q1.length : Int) then
    (Decision.rejected cfg.windowSeconds cfg.requestsPerMinute
      (max 0 (cfg.requestsPerMinute - (q1.length : Int))) (now + cfg.windowSeconds), q1)
  else
    let q2 := q1 ++ [now]
    (Decision.admitted cfg.requestsPerMinute
      (max 0 (cfg.requestsPerMinute - (q2.length : Int))) (now + cfg.windowSeconds), q2)

/-- Run a sequence of `admit` calls for one client, collecting the decisions. -/
def admitRun (cfg : Config) (q : List Int) : List Int → List Decision
  | [] => []
  | s :: ts => (admitRequest cfg q s).1 :: admitRun cfg (admitRequest cfg q s).2 ts

/-- The timestamps that get admitted (recorded) along a sequence of `admit`
calls for one client. -/
def admittedTimes (cfg : Config) (q : List Int) : List Int → List Int
  | [] => []
  | s :: ts =>
    match admitRequest cfg q s with
    | (Decision.admitted _ _ _, q') => s :: admittedTimes cfg q' ts
    | (Decision.rejected _ _ _ _, q') => admittedTimes cfg q' ts

/-! ### Basic lemmas about `purge` -/

theorem purge_decomp (c : Int) (q : List Int) :
    ∃ d, q = d ++ purge c q ∧ ∀ x ∈ d, x < c := by
  induction q with
  | nil => exact ⟨[], rfl, by simp⟩
  | cons x xs ih =>
    by_cases hx : x < c
    · obtain ⟨d, hd, hlt⟩ := ih
      refine ⟨x :: d, ?_, ?_⟩
      · simpa [purge, hx] using hd
      · intro y hy
        rcases List.mem_cons.1 hy with h | h
        · exact h ▸ hx
        · exact hlt y h
    · exact ⟨[], by simp [purge, hx], by simp⟩

theorem purge_sublist (c : Int) (q : List Int) : List.Sublist (purge c q) q := by
  induction q with
  | nil => simp [purge]
  | cons x xs ih =>
    by_cases hx : x < c
    · simpa [purge, hx] using ih.trans (List.sublist_cons_self x xs)
    · simp [purge, hx]

theorem purge_length_le (c : Int) (q : List Int) : (purge c q).length ≤ q.length :=
  (purge_sublist c q).length_le

theorem purge_purge {c₁ c₂ : Int} (h : c₁ ≤ c₂) (q : List Int) :
    purge c₂ (purge c₁ q) = purge c₂ q := by
  induction q with
  | nil => simp [purge]
  | cons x xs ih =>
    by_cases hx : x < c₁
    · simp [purge, hx, hx.trans_le h, ih]
    · simp [purge, hx]

/-- On a sorted (non-decreasing) queue — the shape every reachable queue has —
the front-purge loop removes exactly the timestamps strictly below the cutoff. -/
theorem purge_eq_filter {q : List Int} (hq : List.Pairwise (· ≤ ·) q) (c : Int) :
    purge c q = q.filter (fun x => decide (c ≤ x)) := by
  induction q with
  | nil => simp [purge]
  | cons x xs ih =>
    rcases List.pairwise_cons.1 hq with ⟨hx, hxs⟩
    by_cases hlt : x < c
    · simp [purge, hlt, ih hxs, not_le.2 hlt]
    · have hc : c ≤ x := not_lt.1 hlt
      have : xs.filter (fun y => decide (c ≤ y)) = xs :=
        List.filter_eq_self.2 fun y hy => by
          simpa using hc.trans (hx y hy)
      simp [purge, hlt, hc, this]

/-- Unfolding `admit` in the rejected case. -/
theorem admit_of_le {cfg : Config} {q : List Int} {now : Int}
    (h : cfg.requestsPerMinute ≤ ((purge (now - cfg.windowSeconds) q).length : Int)) :
    admitRequest cfg q now =
      (Decision.rejected cfg.windowSeconds cfg.requestsPerMinute
        (max 0 (cfg.requestsPerMinute - ((purge (now - cfg.windowSeconds) q).length : Int)))
        (now + cfg.windowSeconds),
       purge (now - cfg.windowSeconds) q) := by
  simp [admitRequest, h]

/-- Unfolding `admit` in the admitted case. -/
theorem admit_of_lt {cfg : Config} {q : List Int} {now : Int}
    (h : ((purge (now - cfg.windowSeconds) q).length : Int) < cfg.requestsPerMinute) :
    admitRequest cfg q now =
      (Decision.admitted cfg.requestsPerMinute
        (max 0 (cfg.requestsPerMinute - ((purge (now - cfg.windowSeconds) q ++ [now]).length : Int)))
        (now + cfg.windowSeconds),
       purge (now - cfg.windowSeconds) q ++ [now]) := by
  simp [admitRequest, not_le.2 h]

/-! ### Claims C2, C3, C4, C9 -/

/-- C2: when, after purging timestamps older than `now - window_seconds`, the
remaining count is at least `requests_per_window`, `admit` rejects with
`retry_after = window_seconds`, `remaining = 0`,
`reset_at = now + window_seconds`, the stored queue is exactly the purged
queue (`now` is not appended), and the queue length does not increase. -/
theorem rejected_branch_spec (cfg : Config) (q : List Int) (now : Int)
    (h : cfg.requestsPerMinute ≤ ((purge (now - cfg.windowSeconds) q).length : Int)) :
    admitRequest cfg q now =
      (Decision.rejected cfg.windowSeconds cfg.requestsPerMinute 0 (now + cfg.windowSeconds),
       purge (now - cfg.windowSeconds) q) ∧
    (purge (now - cfg.windowSeconds) q).length ≤ q.length := by
  refine ⟨?_, purge_length_le _ _⟩
  rw [admit_of_le h]
  have : max 0 (cfg.requestsPerMinute - ((purge (now - cfg.windowSeconds) q).length : Int)) = 0 := by
    omega
  rw [this]

/-- C2 witness: with limit 1, window 10, queue `[5]`, a call at `t = 6` is
rejected, leaves the queue at `[5]`, and reports `remaining = 0`. -/
theorem rejected_branch_spec_witness :
    admitRequest ⟨1, 10⟩ [5] 6 =
      (Decision.rejected 10 1 0 16, purge (6 - 10) [5]) ∧
    (purge (6 - 10) [5]).length ≤ [5].length :=
  rejected_branch_spec ⟨1, 10⟩ [5] 6 (by decide)

/-- C3: when, after purging, the remaining count is strictly below the limit,
`admit` appends `now` and returns `Admitted` with
`remaining = limit - new_count` (new count = purged length + 1) and
`reset_at = now + window_seconds`. -/
theorem admitted_branch_spec (cfg : Config) (q : List Int) (now : Int)
    (h : ((purge (now - cfg.windowSeconds) q).length : Int) < cfg.requestsPerMinute) :
    admitRequest cfg q now =
      (Decision.admitted cfg.requestsPerMinute
        (cfg.requestsPerMinute - ((purge (now - cfg.windowSeconds) q ++ [now]).length : Int))
        (now + cfg.windowSeconds),
       purge (now - cfg.windowSeconds) q ++ [now]) := by
  rw [admit_of_lt h]
  have hlen : ((purge (now - cfg.windowSeconds) q ++ [now]).length : Int)
      = ((purge (now - cfg.windowSeconds) q).length : Int) + 1 := by
    simp
  have : max 0 (cfg.requestsPerMinute - ((purge (now - cfg.windowSeconds) q ++ [now]).length : Int))
      = cfg.requestsPerMinute - ((purge (now - cfg.windowSeconds) q ++ [now]).length : Int) := by
    omega
  rw [this]

/-- C3 witness: with limit 2, window 10, queue `[5]`, a call at `t = 6` is
admitted, appends `6`, and reports `remaining = 0`. -/
theorem admitted_branch_spec_witness :
    admitRequest ⟨2, 10⟩ [5] 6 =
      (Decision.admitted 2 (2 - ((purge (6 - 10) [5] ++ [6]).length : Int)) 16,
       purge (6 - 10) [5] ++ [6]) :=
  admitted_branch_spec ⟨2, 10⟩ [5] 6 (by decide)

/-- C4: with limit 2 and window 10, starting from an empty queue, calls at
`t = 0, 1, 2, 11` yield Admitted(remaining 1), Admitted(remaining 0),
Rejected(retry_after 10), Admitted(remaining 0). -/
theorem concrete_scenario :
    admitRun ⟨2, 10⟩ [] [0, 1, 2, 11] =
      [Decision.admitted 2 1 10, Decision.admitted 2 0 11,
       Decision.rejected 10 2 0 12, Decision.admitted 2 0 21] := by
  decide

/-- C9: `admit` is a total function — for every configuration, queue and
timestamp it returns a decision value, either `Admitted` or `Rejected`;
no failure escapes as an exception. -/
theorem admit_total (cfg : Config) (q : List Int) (now : Int) :
    (∃ l r ra, (admitRequest cfg q now).1 = Decision.admitted l r ra) ∨
    (∃ ra l r rs, (admitRequest cfg q now).1 = Decision.rejected ra l r rs) := by
  by_cases h : cfg.requestsPerMinute ≤ ((purge (now - cfg.windowSeconds) q).length : Int)
  · exact Or.inr ⟨_, _, _, _, by rw [admit_of_le h]⟩
  · exact Or.inl ⟨_, _, _, by rw [admit_of_lt (not_le.1 h)]⟩

/-! ### Claim C1: the sliding-window bound -/

/-- Membership of a timestamp `u` in the half-open window `(t - W, t]`. -/
def inWindow (cfg : Config) (t u : Int) : Bool :=
  decide (t - cfg.windowSeconds < u) && decide (u ≤ t)

theorem admittedTimes_sublist (cfg : Config) (q ts : List Int) :
    List.Sublist (admittedTimes cfg q ts) ts := by
  induction ts generalizing q with
  | nil => simp [admittedTimes]
  | cons s ts ih =>
    by_cases h : cfg.requestsPerMinute ≤ ((purge (s - cfg.windowSeconds) q).length : Int)
    · rw [show admittedTimes cfg q (s :: ts)
          = admittedTimes cfg (purge (s - cfg.windowSeconds) q) ts from by
        simp [admittedTimes, admit_of_le h]]
      exact (ih _).trans (List.sublist_cons_self s ts)
    · push_neg at h
      rw [show admittedTimes cfg q (s :: ts)
          = s :: admittedTimes cfg (purge (s - cfg.windowSeconds) q ++ [s]) ts from by
        simp [admittedTimes, admit_of_lt h]]
      exact List.Sublist.cons₂ s (ih _)

/-- Purging at a cutoff `s - W` with `s ≤ t` removes nothing from the window
`(t - W, t]`: the purged-away prefix lies strictly below `s - W ≤ t - W`. -/
theorem countP_purge_eq (cfg : Config) {t s : Int} (hst : s ≤ t) (q : List Int) :
    (purge (s - cfg.windowSeconds) q).countP (inWindow cfg t) = q.countP (inWindow cfg t) := by
  obtain ⟨d, hd, hlt⟩ := purge_decomp (s - cfg.windowSeconds) q
  have hzero : d.countP (inWindow cfg t) = 0 := by
    refine List.countP_eq_zero.2 fun x hx => ?_
    have hxlt := hlt x hx
    simp only [inWindow, Bool.and_eq_true, decide_eq_true_eq, not_and]
    intro h1
    omega
  conv_rhs => rw [hd]
  rw [List.countP_append, hzero]
  omega

/-- Invariant carried along a monotone call sequence: the timestamps currently
in the queue plus all future admissions never put more than the limit into any
fixed window `(t - W, t]`. -/
theorem admitted_window_le (cfg : Config) (t : Int) (ts : List Int) :
    ∀ q : List Int, List.Pairwise (· ≤ ·) ts → (q.length : Int) ≤ cfg.requestsPerMinute →
      ((q.countP (inWindow cfg t) : Int) +
        ((admittedTimes cfg q ts).countP (inWindow cfg t) : Int)) ≤ cfg.requestsPerMinute := by
  induction ts with
  | nil =>
    intro q _ hq
    have h1 : q.countP (inWindow cfg t) ≤ q.length := List.countP_le_length _
    simp only [admittedTimes, List.countP_nil]
    omega
  | cons s ts ih =>
    intro q hpw hq
    obtain ⟨hs, hts⟩ := List.pairwise_cons.1 hpw
    rcases le_or_lt s t with hst | hst
    · by_cases hlim : cfg.requestsPerMinute ≤ ((purge (s - cfg.windowSeconds) q).length : Int)
      · -- the call at `s` is rejected; the queue is merely purged
        have hq' : ((purge (s - cfg.windowSeconds) q).length : Int) ≤ cfg.requestsPerMinute := by
          have := purge_length_le (s - cfg.windowSeconds) q
          omega
        have hrec := ih (purge (s - cfg.windowSeconds) q) hts hq'
        rw [show admittedTimes cfg q (s :: ts)
            = admittedTimes cfg (purge (s - cfg.windowSeconds) q) ts from by
          simp [admittedTimes, admit_of_le hlim]]
        rw [← countP_purge_eq cfg hst q]
        exact hrec
      · -- the call at `s` is admitted; `s` is appended
        push_neg at hlim
        have hq' : (((purge (s - cfg.windowSeconds) q ++ [s]).length : Int))
            ≤ cfg.requestsPerMinute := by
          have : (purge (s - cfg.windowSeconds) q ++ [s]).length
              = (purge (s - cfg.windowSeconds) q).length + 1 := by simp
          omega
        have hrec := ih (purge (s - cfg.windowSeconds) q ++ [s]) hts hq'
        rw [show admittedTimes cfg q (s :: ts)
            = s :: admittedTimes cfg (purge (s - cfg.windowSeconds) q ++ [s]) ts from by
          simp [admittedTimes, admit_of_lt hlim]]
        rw [List.countP_cons]
        rw [List.countP_append, List.countP_cons, List.countP_nil] at hrec
        have hpq := countP_purge_eq cfg hst q
        rcases Bool.eq_false_or_eq_true (inWindow cfg t s) with hw | hw <;>
          simp only [hw, if_true, if_false] at hrec ⊢ <;> omega
    · -- all remaining calls happen after `t`; nothing more lands in `(t - W, t]`
      have hzero : (admittedTimes cfg q (s :: ts)).countP (inWindow cfg t) = 0 := by
        have hle := (admittedTimes_sublist cfg q (s :: ts)).countP_le (inWindow cfg t)
        have hz : (s :: ts).countP (inWindow cfg t) = 0 := by
          refine List.countP_eq_zero.2 fun x hx => ?_
          have hsx : s ≤ x := by
            rcases List.mem_cons.1 hx with rfl | hmem
            · exact le_refl x
            · exact hs x hmem
          simp only [inWindow, Bool.and_eq_true, decide_eq_true_eq, not_and]
          intro _
          omega
        omega
      have h1 : q.countP (inWindow cfg t) ≤ q.length := List.countP_le_length _
      omega

/-- C1: for a fixed client, limit `N > 0` and window `W > 0`, over any sequence
of `admit` calls with non-decreasing timestamps starting from an empty queue,
the number of admitted (recorded) timestamps in `(t - W, t]` never exceeds `N`,
for every time `t`. -/
theorem sliding_window_bound (N W : Int) (hN : 0 < N) (hW : 0 < W)
    (ts : List Int) (hmono : List.Chain' (· ≤ ·) ts) (t : Int) :
    (((admittedTimes ⟨N, W⟩ [] ts).countP (inWindow ⟨N, W⟩ t) : Int)) ≤ N := by
  have hpw : List.Pairwise (· ≤ ·) ts := List.chain'_iff_pairwise.1 hmono
  have h := admitted_window_le ⟨N, W⟩ t ts [] hpw (by simpa using hN.le)
  simpa using h

/-- C1 witness: limit 2, window 10, non-decreasing calls at 0, 1, 2, 11;
the window `(-8, 2]` holds exactly the 2 admitted timestamps 0 and 1. -/
theorem sliding_window_bound_witness :
    (0 : Int) < 2 ∧ (0 : Int) < 10 ∧ List.Chain' (· ≤ ·) [(0 : Int), 1, 2, 11] ∧
    (((admittedTimes ⟨2, 10⟩ [] [0, 1, 2, 11]).countP (inWindow ⟨2, 10⟩ 2) : Int)) ≤ 2 :=
  ⟨by decide, by decide, by norm_num [List.chain'_cons],
    sliding_window_bound 2 10 (by decide) (by decide) [0, 1, 2, 11]
      (by norm_num [List.chain'_cons]) 2⟩

/-! ### The per-client store, the periodic sweep, and `dispatch` -/

/-- The middleware's `_client_requests` map from client key to timestamp
queue, modelled as an association list (a Python dict has one entry per key). -/
abbrev Store := List (String × List Int)

def lookupClient : Store → String → Option (List Int)
  | [], _ => none
  | e :: rest, k => if e.1 = k then some e.2 else lookupClient rest k

/-- Read through the `defaultdict`: a missing client key behaves as an empty queue. -/
def getQueue (st : Store) (k : String) : List Int :=
  (lookupClient st k).getD []

def setQueue : Store → String → List Int → Store
  | [], k, q => [(k, q)]
  | e :: rest, k, q => if e.1 = k then (k, q) :: rest else e :: setQueue rest k q

/-- Body of `_cleanup_old_entries` after the throttle check (the spec's `sweep`):
purge every client's stale timestamps, then drop clients left empty. -/
def sweep (cfg : Config) (st : Store) (now : Int) : Store :=
  (st.map fun e => (e.1, purge (now - cfg.windowSeconds) e.2)).filter
    fun e => !e.2.isEmpty

/-- The sweep cadence, `self._cleanup_interval = 300`. -/
def cleanupInterval : Int := 300

/-- The middleware's mutable state: the client map and `_last_cleanup`. -/
structure LimiterState where
  clientRequests : Store
  lastCleanup : Int
deriving DecidableEq, Repr

/-- Model of `_cleanup_old_entries` including its throttle: do nothing unless at least
`cleanup_interval` seconds have passed since the last sweep. -/
def cleanupOldEntries (cfg : Config) (st : LimiterState) (now : Int) : LimiterState :=
  if now - st.lastCleanup < cleanupInterval then st
  else ⟨sweep cfg st.clientRequests now, now⟩

/-- Outcome of `dispatch` for one request: bypassed (exempt path, the request
goes straight through), rejected with a 429, or passed through with the
rate-limit headers attached. -/
inductive Outcome where
  | bypassed
  | rejected429 (retryAfter limit remaining resetAt : Int)
  | passed (limit remaining resetAt : Int)
deriving DecidableEq, Repr

/-- Paths exempt from rate limiting (line 246 of the source). -/
def exemptPaths : List String := ["/health", "/health/detailed", "/metrics"]

/-- Model of `RateLimitMiddleware.dispatch` (lines 244–296): exempt paths bypass
everything; otherwise run the throttled cleanup, purge the client's queue,
and either reject or record the request and pass it through. -/
def dispatch (cfg : Config) (path clientKey : String) (st : LimiterState)
    (now : Int) : Outcome × LimiterState :=
  if path ∈ exemptPaths then (Outcome.bypassed, st)
  else
    let st1 := cleanupOldEntries cfg st now
    let q1 := purge (now - cfg.windowSeconds) (getQueue st1.clientRequests clientKey)
    if cfg.requestsPerMinute ≤ (q1.length : Int) then
      (Outcome.rejected429 cfg.windowSeconds cfg.requestsPerMinute
        (max 0 (cfg.requestsPerMinute - (q1.length : Int))) (now + cfg.windowSeconds),
       ⟨setQueue st1.clientRequests clientKey q1, st1.lastCleanup⟩)
    else
      (Outcome.passed cfg.requestsPerMinute
        (max 0 (cfg.requestsPerMinute - ((q1 ++ [now]).length : Int))) (now + cfg.windowSeconds),
       ⟨setQueue st1.clientRequests clientKey (q1 ++ [now]), st1.lastCleanup⟩)

/-- Run `dispatch` over a list of requests `(path, clientKey, now)`. -/
def dispatchRun (cfg : Config) (st : LimiterState) :
    List (String × String × Int) → List Outcome × LimiterState
  | [] => ([], st)
  | r :: rs =>
    ((dispatch cfg r.1 r.2.1 st r.2.2).1 ::
        (dispatchRun cfg (dispatch cfg r.1 r.2.1 st r.2.2).2 rs).1,
     (dispatchRun cfg (dispatch cfg r.1 r.2.1 st r.2.2).2 rs).2)

/-- C5: requests on exempt paths (health checks, metrics) bypass admission
entirely: any number of consecutive such requests, from any clients, are all
answered with a bypass (never a rejection), and the limiter's state — every
client's recorded queue and the cleanup clock — is left completely unchanged. -/
theorem exempt_paths_bypass (cfg : Config) (st : LimiterState)
    (reqs : List (String × String × Int))
    (h : ∀ r ∈ reqs, r.1 ∈ exemptPaths) :
    dispatchRun cfg st reqs = (reqs.map fun _ => Outcome.bypassed, st) := by
  induction reqs generalizing st with
  | nil => simp [dispatchRun]
  | cons r rs ih =>
    have hr : r.1 ∈ exemptPaths := h r (List.mem_cons_self r rs)
    have hd : dispatch cfg r.1 r.2.1 st r.2.2 = (Outcome.bypassed, st) := by
      simp [dispatch, hr]
    simp [dispatchRun, hd, ih st fun x hx => h x (List.mem_cons_of_mem r hx)]

/-- C5 witness: 3 consecutive exempt-path requests against a store that
already tracks a client leave the store and the cleanup clock untouched
and are all bypassed. -/
theorem exempt_paths_bypass_witness :
    (∀ r ∈ ([("/health", "1.2.3.4", 0), ("/metrics", "1.2.3.4", 1),
             ("/health/detailed", "5.6.7.8", 2)] : List (String × String × Int)),
        r.1 ∈ exemptPaths) ∧
    dispatchRun ⟨2, 10⟩ ⟨[("9.9.9.9", [0])], 0⟩
        [("/health", "1.2.3.4", 0), ("/metrics", "1.2.3.4", 1),
         ("/health/detailed", "5.6.7.8", 2)]
      = ([Outcome.bypassed, Outcome.bypassed, Outcome.bypassed],
         ⟨[("9.9.9.9", [0])], 0⟩) :=
  ⟨by decide, exempt_paths_bypass ⟨2, 10⟩ ⟨[("9.9.9.9", [0])], 0⟩ _ (by decide)⟩

/-! ### Lemmas about the store, and claim C6 -/

theorem lookupClient_eq_none {st : Store} {k : String}
    (h : k ∉ st.map Prod.fst) : lookupClient st k = none := by
  induction st with
  | nil => rfl
  | cons e rest ih =>
    simp only [List.map_cons, List.mem_cons] at h
    push_neg at h
    have hek : e.1 ≠ k := fun hh => h.1 hh.symm
    simp [lookupClient, hek, ih h.2]

theorem lookupClient_mem {st : Store} {k : String} {q : List Int}
    (h : lookupClient st k = some q) : (k, q) ∈ st := by
  induction st with
  | nil => simp [lookupClient] at h
  | cons e rest ih =>
    by_cases hek : e.1 = k
    · simp only [lookupClient, hek, if_true, Option.some.injEq] at h
      subst h
      subst hek
      exact List.mem_cons_self e rest
    · simp only [lookupClient, hek, if_false] at h
      exact List.mem_cons_of_mem e (ih h)

theorem sweep_keys_sublist (cfg : Config) (st : Store) (now : Int) :
    List.Sublist ((sweep cfg st now).map Prod.fst) (st.map Prod.fst) := by
  have h1 : List.Sublist (sweep cfg st now)
      (st.map fun e => (e.1, purge (now - cfg.windowSeconds) e.2)) :=
    List.filter_sublist _
  have h2 := h1.map Prod.fst
  have h3 : ((st.map fun e => (e.1, purge (now - cfg.windowSeconds) e.2)).map Prod.fst)
      = st.map Prod.fst := by
    rw [List.map_map]
    rfl
  rw [h3] at h2
  exact h2

theorem sweep_nodup {cfg : Config} {st : Store} {now : Int}
    (h : (st.map Prod.fst).Nodup) : ((sweep cfg st now).map Prod.fst).Nodup :=
  h.sublist (sweep_keys_sublist cfg st now)

/-- What the sweep does to each client entry, read back through lookup. -/
theorem lookupClient_sweep (cfg : Config) (st : Store) (now : Int) (k : String)
    (hnodup : (st.map Prod.fst).Nodup) :
    lookupClient (sweep cfg st now) k =
      match lookupClient st k with
      | none => none
      | some q =>
        if (purge (now - cfg.windowSeconds) q).isEmpty then none
        else some (purge (now - cfg.windowSeconds) q) := by
  induction st with
  | nil => simp [sweep, lookupClient]
  | cons e rest ih =>
    simp only [List.map_cons, List.nodup_cons] at hnodup
    obtain ⟨hk, hrest⟩ := hnodup
    have hsw : sweep cfg (e :: rest) now
        = if (purge (now - cfg.windowSeconds) e.2).isEmpty
          then sweep cfg rest now
          else (e.1, purge (now - cfg.windowSeconds) e.2) :: sweep cfg rest now := by
      by_cases hemp : (purge (now - cfg.windowSeconds) e.2).isEmpty <;>
        simp [sweep, List.filter_cons, hemp]
    by_cases hek : e.1 = k
    · subst hek
      by_cases hemp : (purge (now - cfg.windowSeconds) e.2).isEmpty
      · have hmem : e.1 ∉ (sweep cfg rest now).map Prod.fst := fun hmem =>
          hk ((sweep_keys_sublist cfg rest now).subset hmem)
        rw [hsw]
        simp [hemp, lookupClient, lookupClient_eq_none hmem]
      · rw [hsw]
        simp [hemp, lookupClient]
    · rw [hsw]
      have hrhs :
          (match lookupClient (e :: rest) k with
            | none => none
            | some q =>
              if (purge (now - cfg.windowSeconds) q).isEmpty then none
              else some (purge (now - cfg.windowSeconds) q))
          = (match lookupClient rest k with
            | none => none
            | some q =>
              if (purge (now - cfg.windowSeconds) q).isEmpty then none
              else some (purge (now - cfg.windowSeconds) q) :
              Option (List Int)) := by
        simp [lookupClient, hek]
      rw [hrhs]
      by_cases hemp : (purge (now - cfg.windowSeconds) e.2).isEmpty
      · rw [if_pos hemp]
        exact ih hrest
      · rw [if_neg hemp]
        rw [show lookupClient ((e.1, purge (now - cfg.windowSeconds) e.2) :: sweep cfg rest now) k
            = lookupClient (sweep cfg rest now) k from by simp [lookupClient, hek]]
        exact ih hrest

/-- Reading `getQueue` after a sweep at `now` gives the purge of `getQueue` before it. -/
theorem getQueue_sweep (cfg : Config) (st : Store) (now : Int) (k : String)
    (hnodup : (st.map Prod.fst).Nodup) :
    getQueue (sweep cfg st now) k = purge (now - cfg.windowSeconds) (getQueue st k) := by
  unfold getQueue
  rw [lookupClient_sweep cfg st now k hnodup]
  cases hl : lookupClient st k with
  | none => simp [purge]
  | some q =>
    by_cases hemp : (purge (now - cfg.windowSeconds) q).isEmpty
    · simp [hemp, List.isEmpty_iff.1 hemp]
    · simp [hemp]

theorem purge_eq_nil_of_lt {c : Int} {q : List Int} (h : ∀ x ∈ q, x < c) :
    purge c q = [] := by
  induction q with
  | nil => rfl
  | cons x xs ih =>
    simp [purge, h x (List.mem_cons_self x xs),
      ih fun y hy => h y (List.mem_cons_of_mem x hy)]

/-- C6: the sweep purges from every tracked client's sequence all timestamps
older than `now - window_seconds` (for the sorted sequences every reachable
state holds, the front-purge loop removes exactly those), and removes every
client whose sequence thereby becomes empty; in particular a client all of
whose timestamps have aged out is absent from the store after the sweep. -/
theorem sweep_spec (cfg : Config) (st : Store) (now : Int)
    (hnodup : (st.map Prod.fst).Nodup)
    (hsorted : ∀ e ∈ st, List.Pairwise (· ≤ ·) e.2) :
    (∀ k, lookupClient (sweep cfg st now) k =
        match lookupClient st k with
        | none => none
        | some q =>
          if (q.filter fun x => decide (now - cfg.windowSeconds ≤ x)).isEmpty then none
          else some (q.filter fun x => decide (now - cfg.windowSeconds ≤ x)))
    ∧ ∀ k q, lookupClient st k = some q → (∀ x ∈ q, x < now - cfg.windowSeconds) →
        lookupClient (sweep cfg st now) k = none := by
  constructor
  · intro k
    rw [lookupClient_sweep cfg st now k hnodup]
    cases hl : lookupClient st k with
    | none => rfl
    | some q =>
      have hq : List.Pairwise (· ≤ ·) q := hsorted (k, q) (lookupClient_mem hl)
      simp only [purge_eq_filter hq]
  · intro k q hl hall
    rw [lookupClient_sweep cfg st now k hnodup, hl]
    simp [purge_eq_nil_of_lt hall]

/-- C6 witness: with window 10 at `now = 12`, client `"b"` whose single
timestamp 1 has aged out is dropped from the store by the sweep, while
client `"a"` keeps its in-window timestamp 5. -/
theorem sweep_spec_witness :
    lookupClient (sweep ⟨2, 10⟩ [("a", [0, 5]), ("b", [1])] 12) "b" = none :=
  (sweep_spec ⟨2, 10⟩ [("a", [0, 5]), ("b", [1])] 12 (by decide)
      (by decide)).2 "b" [1] (by decide) (by decide)

/-! ### Claim C7: independence across clients -/

theorem lookupClient_setQueue_ne {A B : String} (hAB : A ≠ B)
    (st : Store) (q : List Int) :
    lookupClient (setQueue st A q) B = lookupClient st B := by
  induction st with
  | nil => simp [setQueue, lookupClient, hAB]
  | cons e rest ih =>
    by_cases heA : e.1 = A
    · simp [setQueue, heA, lookupClient, hAB, heA ▸ (heA ▸ hAB : e.1 ≠ B)]
    · by_cases heB : e.1 = B <;>
        simp [setQueue, heA, lookupClient, heB, ih, Ne.symm hAB]

theorem setQueue_keys (st : Store) (k : String) (q : List Int) :
    (setQueue st k q).map Prod.fst =
      if k ∈ st.map Prod.fst then st.map Prod.fst else st.map Prod.fst ++ [k] := by
  induction st with
  | nil => simp [setQueue]
  | cons e rest ih =>
    by_cases hek : e.1 = k
    · simp [setQueue, hek]
    · have hne : k ≠ e.1 := fun hh => hek hh.symm
      by_cases hmem : k ∈ rest.map Prod.fst <;>
        simp [setQueue, hek, ih, hmem, hne]

theorem setQueue_nodup {st : Store} (h : (st.map Prod.fst).Nodup)
    (k : String) (q : List Int) :
    ((setQueue st k q).map Prod.fst).Nodup := by
  rw [setQueue_keys]
  by_cases hmem : k ∈ st.map Prod.fst
  · simpa [hmem] using h
  · simp only [hmem, if_false]
    simp [List.nodup_append, h, hmem]

theorem cleanup_nodup (cfg : Config) (st : LimiterState) (now : Int)
    (h : (st.clientRequests.map Prod.fst).Nodup) :
    ((cleanupOldEntries cfg st now).clientRequests.map Prod.fst).Nodup := by
  unfold cleanupOldEntries
  by_cases hth : now - st.lastCleanup < cleanupInterval
  · simpa [hth] using h
  · rw [if_neg hth]
    exact sweep_nodup h

/-- Cleanup at a time `s ≤ nowB` does not change what a later purge at
`nowB` leaves of any client's queue. -/
theorem purged_getQueue_cleanup (cfg : Config) (st : LimiterState)
    {s nowB : Int} (hs : s ≤ nowB) (B : String)
    (hnodup : (st.clientRequests.map Prod.fst).Nodup) :
    purge (nowB - cfg.windowSeconds)
        (getQueue (cleanupOldEntries cfg st s).clientRequests B)
      = purge (nowB - cfg.windowSeconds) (getQueue st.clientRequests B) := by
  unfold cleanupOldEntries
  by_cases hth : s - st.lastCleanup < cleanupInterval
  · rw [if_pos hth]
  · rw [if_neg hth]
    show purge (nowB - cfg.windowSeconds) (getQueue (sweep cfg st.clientRequests s) B) = _
    rw [getQueue_sweep cfg st.clientRequests s B hnodup]
    exact purge_purge (by omega) _

/-- The decision routine looks at the queue only through its purge at `now`. -/
theorem admit_congr {cfg : Config} {q q' : List Int} {now : Int}
    (h : purge (now - cfg.windowSeconds) q = purge (now - cfg.windowSeconds) q') :
    admitRequest cfg q now = admitRequest cfg q' now := by
  simp only [admitRequest]
  rw [h]

theorem dispatch_snd (cfg : Config) (path key : String) (st : LimiterState)
    (now : Int) (h : path ∉ exemptPaths) :
    (dispatch cfg path key st now).2 =
      ⟨setQueue (cleanupOldEntries cfg st now).clientRequests key
        (admitRequest cfg (getQueue (cleanupOldEntries cfg st now).clientRequests key) now).2,
       (cleanupOldEntries cfg st now).lastCleanup⟩ := by
  simp only [dispatch, admitRequest, h, if_false]
  by_cases hlim : cfg.requestsPerMinute ≤
      ((purge (now - cfg.windowSeconds)
        (getQueue (cleanupOldEntries cfg st now).clientRequests key)).length : Int) <;>
    simp [hlim]

theorem dispatch_fst (cfg : Config) (path key : String) (st : LimiterState)
    (now : Int) (h : path ∉ exemptPaths) :
    (dispatch cfg path key st now).1 =
      match (admitRequest cfg (getQueue (cleanupOldEntries cfg st now).clientRequests key) now).1 with
      | Decision.admitted l r ra => Outcome.passed l r ra
      | Decision.rejected rt l r ra => Outcome.rejected429 rt l r ra := by
  simp only [dispatch, admitRequest, h, if_false]
  by_cases hlim : cfg.requestsPerMinute ≤
      ((purge (now - cfg.windowSeconds)
        (getQueue (cleanupOldEntries cfg st now).clientRequests key)).length : Int) <;>
    simp [hlim]

/-- One non-B `dispatch` call at time `s ≤ nowB` neither disturbs what a purge
at `nowB` leaves of B's queue nor breaks key uniqueness. -/
theorem dispatch_preserves_other (cfg : Config) {A B : String} (hAB : A ≠ B)
    (st : LimiterState) (p : String) {s nowB : Int} (hs : s ≤ nowB)
    (hnodup : (st.clientRequests.map Prod.fst).Nodup) :
    purge (nowB - cfg.windowSeconds)
        (getQueue ((dispatch cfg p A st s).2).clientRequests B)
      = purge (nowB - cfg.windowSeconds) (getQueue st.clientRequests B)
    ∧ (((dispatch cfg p A st s).2).clientRequests.map Prod.fst).Nodup := by
  by_cases hex : p ∈ exemptPaths
  · simp [dispatch, hex, hnodup]
  · rw [dispatch_snd cfg p A st s hex]
    refine ⟨?_, setQueue_nodup (cleanup_nodup cfg st s hnodup) A _⟩
    show purge (nowB - cfg.windowSeconds) (getQueue (setQueue _ A _) B) = _
    unfold getQueue
    rw [lookupClient_setQueue_ne hAB]
    exact purged_getQueue_cleanup cfg st hs B hnodup

/-- Run a sequence of `dispatch` calls `(path, now)` for a single client key. -/
def runDispatch (cfg : Config) (key : String) (st : LimiterState) :
    List (String × Int) → LimiterState
  | [] => st
  | c :: cs => runDispatch cfg key (dispatch cfg c.1 key st c.2).2 cs

theorem runDispatch_preserves (cfg : Config) {A B : String} (hAB : A ≠ B)
    (nowB : Int) :
    ∀ (calls : List (String × Int)) (st : LimiterState),
      (st.clientRequests.map Prod.fst).Nodup →
      (∀ c ∈ calls, c.2 ≤ nowB) →
      purge (nowB - cfg.windowSeconds)
          (getQueue (runDispatch cfg A st calls).clientRequests B)
        = purge (nowB - cfg.windowSeconds) (getQueue st.clientRequests B)
      ∧ ((runDispatch cfg A st calls).clientRequests.map Prod.fst).Nodup := by
  intro calls
  induction calls with
  | nil => intro st h _; exact ⟨rfl, h⟩
  | cons c cs ih =>
    intro st hnodup hle
    have hc : c.2 ≤ nowB := hle c (List.mem_cons_self c cs)
    have hstep := dispatch_preserves_other cfg hAB st c.1 hc hnodup
    have hrec := ih (dispatch cfg c.1 A st c.2).2 hstep.2
      fun x hx => hle x (List.mem_cons_of_mem c hx)
    exact ⟨hrec.1.trans hstep.1, hrec.2⟩

/-- The outcome of a `dispatch` for client B depends on the store only through
what the purge at `now` leaves of B's queue. -/
theorem dispatch_fst_congr (cfg : Config) (p B : String) {st st' : LimiterState}
    (now : Int) (hnodup : (st.clientRequests.map Prod.fst).Nodup)
    (hnodup' : (st'.clientRequests.map Prod.fst).Nodup)
    (h : purge (now - cfg.windowSeconds) (getQueue st.clientRequests B)
        = purge (now - cfg.windowSeconds) (getQueue st'.clientRequests B)) :
    (dispatch cfg p B st now).1 = (dispatch cfg p B st' now).1 := by
  by_cases hex : p ∈ exemptPaths
  · simp [dispatch, hex]
  · rw [dispatch_fst cfg p B st now hex, dispatch_fst cfg p B st' now hex]
    rw [admit_congr
      ((purged_getQueue_cleanup cfg st le_rfl B hnodup).trans
        (h.trans (purged_getQueue_cleanup cfg st' le_rfl B hnodup').symm))]

/-- C7: for distinct client keys A and B, any sequence of requests dispatched
for client A (at times not after B's request, up to or beyond the limit, on
any paths) leaves the outcome — in particular the reported remaining budget —
of a subsequent request by client B exactly as it would have been without
client A's requests. -/
theorem client_independence (cfg : Config) (A B : String) (hAB : A ≠ B)
    (st : LimiterState) (hnodup : (st.clientRequests.map Prod.fst).Nodup)
    (calls : List (String × Int)) (pathB : String) (nowB : Int)
    (hle : ∀ c ∈ calls, c.2 ≤ nowB) :
    (dispatch cfg pathB B (runDispatch cfg A st calls) nowB).1
      = (dispatch cfg pathB B st nowB).1 := by
  have h := runDispatch_preserves cfg hAB nowB calls st hnodup hle
  exact dispatch_fst_congr cfg pathB B nowB h.2 hnodup h.1

/-- C7 witness: client "a" exhausting the limit (limit 1) at t = 1, 2 does not
change the outcome reported to client "b" at t = 3. -/
theorem client_independence_witness :
    (dispatch ⟨1, 10⟩ "/books" "b"
        (runDispatch ⟨1, 10⟩ "a" ⟨[("b", [0])], 0⟩ [("/books", 1), ("/books", 2)]) 3).1
      = (dispatch ⟨1, 10⟩ "/books" "b" ⟨[("b", [0])], 0⟩ 3).1 :=
  client_independence ⟨1, 10⟩ "a" "b" (by decide) ⟨[("b", [0])], 0⟩ (by decide)
    [("/books", 1), ("/books", 2)] "/books" 3 (by decide)

/-! ### Claim C10: the window boundary is inclusive at `now - window_seconds` -/

theorem count_at_cutoff_purge (c : Int) (q : List Int) :
    (purge c q).count c = q.count c := by
  obtain ⟨d, hd, hlt⟩ := purge_decomp c q
  have hz : d.count c = 0 :=
    List.count_eq_zero.2 fun hmem => lt_irrefl c (hlt c hmem)
  conv_rhs => rw [hd]
  rw [List.count_append, hz]
  omega

/-- C10: both the per-call purge inside `admit` and the sweep remove only
timestamps strictly below `now - window_seconds`; a stored timestamp exactly
equal to `now - window_seconds` is retained and still counts against the
client's budget. -/
theorem boundary_inclusive (cfg : Config) (q : List Int) (st : Store)
    (now : Int) (k : String) (hnodup : (st.map Prod.fst).Nodup) :
    (∃ d, q = d ++ purge (now - cfg.windowSeconds) q ∧
        ∀ x ∈ d, x < now - cfg.windowSeconds)
    ∧ (purge (now - cfg.windowSeconds) q).count (now - cfg.windowSeconds)
        = q.count (now - cfg.windowSeconds)
    ∧ q.count (now - cfg.windowSeconds)
        ≤ ((admitRequest cfg q now).2).count (now - cfg.windowSeconds)
    ∧ (getQueue (sweep cfg st now) k).count (now - cfg.windowSeconds)
        = (getQueue st k).count (now - cfg.windowSeconds) := by
  refine ⟨purge_decomp _ q, count_at_cutoff_purge _ q, ?_, ?_⟩
  · by_cases hlim : cfg.requestsPerMinute ≤
        ((purge (now - cfg.windowSeconds) q).length : Int)
    · rw [admit_of_le hlim]
      exact (count_at_cutoff_purge _ q).symm.le
    · push_neg at hlim
      rw [admit_of_lt hlim, List.count_append]
      have := count_at_cutoff_purge (now - cfg.windowSeconds) q
      omega
  · rw [getQueue_sweep cfg st now k hnodup, count_at_cutoff_purge]

/-- C10 witness: window 10 at `now = 12`: the timestamp 2 sitting exactly at
`now - window_seconds` survives both the per-call purge and the sweep. -/
theorem boundary_inclusive_witness :
    (∃ d, [2, 5] = d ++ purge (12 - (⟨2, 10⟩ : Config).windowSeconds) [2, 5] ∧
        ∀ x ∈ d, x < 12 - (⟨2, 10⟩ : Config).windowSeconds)
    ∧ (purge (12 - (⟨2, 10⟩ : Config).windowSeconds) [2, 5]).count
        (12 - (⟨2, 10⟩ : Config).windowSeconds)
        = ([2, 5] : List Int).count (12 - (⟨2, 10⟩ : Config).windowSeconds)
    ∧ ([2, 5] : List Int).count (12 - (⟨2, 10⟩ : Config).windowSeconds)
        ≤ ((admitRequest ⟨2, 10⟩ [2, 5] 12).2).count (12 - (⟨2, 10⟩ : Config).windowSeconds)
    ∧ (getQueue (sweep ⟨2, 10⟩ [("a", [2, 5])] 12) "a").count
        (12 - (⟨2, 10⟩ : Config).windowSeconds)
        = (getQueue [("a", [2, 5])] "a").count (12 - (⟨2, 10⟩ : Config).windowSeconds) :=
  boundary_inclusive ⟨2, 10⟩ [2, 5] [("a", [2, 5])] 12 "a" (by decide)

/-! ### Claim C8: client key extraction (`_get_client_ip`) -/

/-- The request metadata `_get_client_ip` consults: the `X-Forwarded-For`
header, the `X-Real-IP` header, and `request.client.host` (absent when the
transport-level peer is unknown). -/
structure RequestMeta where
  xForwardedFor : Option String
  xRealIp : Option String
  clientHost : Option String
deriving DecidableEq, Repr

/-- The whitespace set of Python's `str.strip`. -/
def isPySpace (c : Char) : Bool :=
  c = ' ' || c = '\t' || c = '\n' || c = '\r' || c = '\x0b' || c = '\x0c'

/-- Python `str.strip()`. -/
def pyStrip (s : String) : String :=
  String.mk (((s.toList.dropWhile isPySpace).reverse.dropWhile isPySpace).reverse)

/-- Everything before the first comma: Python `s.split(",")[0]`. -/
def takeUntilComma : List Char → List Char
  | [] => []
  | c :: cs => if c = ',' then [] else c :: takeUntilComma cs

/-- Model of `forwarded_for.split(",")[0].strip()`. -/
def firstForwardedEntry (s : String) : String :=
  pyStrip (String.mk (takeUntilComma s.toList))

/-- Model of `_get_client_ip` (lines 203–219). `headers.get` yields the header value or
nothing, and Python's `if forwarded_for:` treats a missing and an empty header
alike, so each source is consulted only when present and non-empty. -/
def getClientIp (r : RequestMeta) : String :=
  let forwardedFor := r.xForwardedFor.getD ""
  if forwardedFor ≠ "" then firstForwardedEntry forwardedFor
  else
    let realIp := r.xRealIp.getD ""
    if realIp ≠ "" then realIp
    else
      match r.clientHost with
      | some h => h
      | none => "unknown"

/-- The claim's reading of the preference order: the first entry of the
forwarded chain whenever the header is *present*, then the real-IP header
whenever *present*, then the peer address, else the sentinel. -/
def getClientIpClaimed (r : RequestMeta) : String :=
  match r.xForwardedFor with
  | some s => firstForwardedEntry s
  | none =>
    match r.xRealIp with
    | some s => s
    | none =>
      match r.clientHost with
      | some h => h
      | none => "unknown"

/-- A source used only when present *and non-empty*. -/
def nonEmptySource : Option String → Option String
  | some s => if s = "" then none else some s
  | none => none

/-- The amended preference order: each header is consulted only when present
and non-empty; the sentinel arises only when every source is absent or empty;
a malformed non-empty chain yields its (possibly empty) first entry. -/
def getClientIpAmended (r : RequestMeta) : String :=
  match nonEmptySource r.xForwardedFor with
  | some s => firstForwardedEntry s
  | none =>
    match nonEmptySource r.xRealIp with
    | some s => s
    | none => r.clientHost.getD "unknown"

/-- C8 counterexample: a *present but empty* `X-Forwarded-For` header is
skipped by the code (contradicting "first entry of the chain if present"),
and the malformed chain `","` yields the empty-string key, not the sentinel
`"unknown"` (contradicting "every malformed or empty source of client
identity is mapped to a fixed sentinel key"). -/
theorem client_key_claim_counterexample :
    getClientIp ⟨some "", some "9.9.9.9", none⟩ = "9.9.9.9"
    ∧ getClientIpClaimed ⟨some "", some "9.9.9.9", none⟩ = ""
    ∧ getClientIp ⟨some "", some "9.9.9.9", none⟩
        ≠ getClientIpClaimed ⟨some "", some "9.9.9.9", none⟩
    ∧ getClientIp ⟨some ",", none, none⟩ = ""
    ∧ getClientIp ⟨some ",", none, none⟩ ≠ "unknown" := by
  refine ⟨?_, ?_, ?_, ?_, ?_⟩ <;> decide

/-- C8 amended: the client key follows the preference order with each header
source consulted only when present and non-empty, the transport peer address
third, and the sentinel `"unknown"` exactly when all sources are absent or
empty; the extraction is total, so no identity shape is ever rejected. -/
theorem client_key_amended (r : RequestMeta) :
    getClientIp r = getClientIpAmended r := by
  rcases r with ⟨fwd, real, host⟩
  cases fwd with
  | none =>
    cases real with
    | none => cases host <;> simp [getClientIp, getClientIpAmended, nonEmptySource]
    | some s =>
      by_cases hs : s = "" <;>
        cases host <;>
          simp [getClientIp, getClientIpAmended, nonEmptySource, hs]
  | some s =>
    by_cases hs : s = ""
    · cases real with
      | none => cases host <;> simp [getClientIp, getClientIpAmended, nonEmptySource, hs]
      | some s' =>
        by_cases hs' : s' = "" <;>
          cases host <;>
            simp [getClientIp, getClientIpAmended, nonEmptySource, hs, hs']
    · simp [getClientIp, getClientIpAmended, nonEmptySource, hs]

end RateLimit
